import Mathlib

/-!
Verification of the `boxes` box-covering repository.

The repository ships one source file, `tutorial/boxing_tutorial.ipynb`.
The notebook's own code (`read_max_connected_component`, `path_`,
`boxing_all`, the `algs_lb` / `algs_rb` registries) is embedded directly
from the source.  The `boxes` package the notebook drives
(`boxes.io.run_boxing`, `boxes.io.read_logfile`, the covering algorithms)
is not part of the repository's sources; those parts are modelled from the
specification, as marked in each doc comment.
-/

/-! ## Distances

Every covering algorithm consumes precomputed all-pairs shortest-path
distances.  We parametrise the algorithm models by a distance function
`d : ℕ → ℕ → ℕ`; the distance-oracle facts the proofs need (symmetry,
`d v v = 0`, boundedness by the diameter) appear as hypotheses. -/

/-- Shortest-path distance on the 6-node path graph 0–1–2–3–4–5
(the concrete scenario of the spec): `d u v = |u - v|`. -/
def dPath (u v : ℕ) : ℕ := max u v - min u v

/-- Diameter as the network computes it: the maximum over all node pairs
of the shortest-path distance (0 for the empty node list). -/
def diam (d : ℕ → ℕ → ℕ) (V : List ℕ) : ℕ :=
  (V.map (fun u => (V.map (d u)).foldr max 0)).foldr max 0

theorem mem_le_foldr_max (l : List ℕ) (a : ℕ) (h : a ∈ l) :
    a ≤ l.foldr max 0 := by
  induction l with
  | nil => cases h
  | cons b bs ih =>
    rcases List.mem_cons.mp h with h1 | h1
    · subst h1; exact le_max_left _ _
    · exact le_trans (ih h1) (le_max_right _ _)

theorem dist_le_diam {d : ℕ → ℕ → ℕ} {V : List ℕ} {u w : ℕ}
    (hu : u ∈ V) (hw : w ∈ V) : d u w ≤ diam d V := by
  have h1 : d u w ≤ (V.map (d u)).foldr max 0 :=
    mem_le_foldr_max _ _ (List.mem_map_of_mem (d u) hw)
  exact le_trans h1 (mem_le_foldr_max _ _ (List.mem_map_of_mem _ hu))

/-! ## Greedy coloring (lb family)

Modelled from the spec: `boxes.greedy_coloring` is not under `src/`.
Per §4.2, the algorithm "processes nodes in a chosen order … assigning
each node the lowest-indexed existing box it can join without violating
the diameter bound against all current members; if none fits, opens a
new box".  The intra-box bound is taken as `max pairwise distance ≤ lb`
(§8 "lb: max intra-box pairwise distance ≤ bound"); this convention is
pinned down by the notebook's recorded outputs for `facebook_caltech`
greedy (box size 1 gave 282 boxes on the 762-node component, and box
size 6 = diameter gave 1 box), which is only possible when members at
distance exactly `lb` may share a box. -/

/-- A node `v` fits box `B` iff it is within `lb` of every current member. -/
def fits (d : ℕ → ℕ → ℕ) (lb v : ℕ) (B : List ℕ) : Bool :=
  B.all (fun u => d u v ≤ lb)

/-- Insert `v` into the lowest-indexed fitting box, or open a new box at
the end. -/
def greedyInsert (d : ℕ → ℕ → ℕ) (lb v : ℕ) : List (List ℕ) → List (List ℕ)
  | [] => [[v]]
  | B :: Bs => if fits d lb v B then (v :: B) :: Bs else B :: greedyInsert d lb v Bs

/-- The boxes produced by greedy coloring processing `order` left to right. -/
def greedyBoxes (d : ℕ → ℕ → ℕ) (lb : ℕ) (order : List ℕ) : List (List ℕ) :=
  order.foldl (fun Bs v => greedyInsert d lb v Bs) []

/-- The `Partition` as a node-to-box-identifier mapping, box identifiers
numbered from `i`. -/
def partitionFrom (i : ℕ) : List (List ℕ) → List (ℕ × ℕ)
  | [] => []
  | B :: Bs => B.map (fun v => (v, i)) ++ partitionFrom (i + 1) Bs

/-- The `Partition` returned in `boxing=False` mode: node ↦ box id. -/
def partitionOf (boxes : List (List ℕ)) : List (ℕ × ℕ) := partitionFrom 0 boxes

/-- Number of distinct box identifiers used by a partition. -/
def distinctBoxCount (p : List (ℕ × ℕ)) : ℕ := (p.map Prod.snd).dedup.length

/-- Modelled from the spec: `greedy_coloring(network, lb, boxing)` returns
only the box count when `boxing` is true, and the full partition
otherwise. -/
def greedy_coloring (d : ℕ → ℕ → ℕ) (lb : ℕ) (order : List ℕ) (boxing : Bool) :
    ℕ ⊕ List (ℕ × ℕ) :=
  if boxing then Sum.inl (greedyBoxes d lb order).length
  else Sum.inr (partitionOf (greedyBoxes d lb order))

/-! Basic structural lemmas about greedy coloring. -/

theorem greedyInsert_flatten_perm (d : ℕ → ℕ → ℕ) (lb v : ℕ) :
    ∀ Bs : List (List ℕ),
      (greedyInsert d lb v Bs).flatten.Perm (v :: Bs.flatten) := by
  intro Bs
  induction Bs with
  | nil => simp [greedyInsert]
  | cons B Bs ih =>
    by_cases h : fits d lb v B
    · simp [greedyInsert, h]
    · simp only [greedyInsert, h, if_false, List.flatten_cons]
      exact List.Perm.trans (List.Perm.append_left _ ih) List.perm_middle

theorem greedyBoxes_flatten_perm (d : ℕ → ℕ → ℕ) (lb : ℕ) (order : List ℕ) :
    (greedyBoxes d lb order).flatten.Perm order := by
  suffices h : ∀ (ord : List ℕ) (Bs : List (List ℕ)),
      (ord.foldl (fun Bs v => greedyInsert d lb v Bs) Bs).flatten.Perm
        (ord ++ Bs.flatten) by
    simpa using h order []
  intro ord
  induction ord with
  | nil => intro Bs; simp
  | cons v rest ih =>
    intro Bs
    simp only [List.foldl_cons, List.cons_append]
    exact List.Perm.trans (ih _)
      (List.Perm.trans
        (List.Perm.append_left _ (greedyInsert_flatten_perm d lb v Bs))
        List.perm_middle)

/-- Greedy never creates an empty box. -/
theorem greedyInsert_ne_nil (d : ℕ → ℕ → ℕ) (lb v : ℕ) :
    ∀ Bs : List (List ℕ), (∀ B ∈ Bs, B ≠ []) →
      ∀ B ∈ greedyInsert d lb v Bs, B ≠ [] := by
  intro Bs
  induction Bs with
  | nil => intro _ B hB; simp [greedyInsert] at hB; simp [hB]
  | cons B0 Bs ih =>
    intro h B hB
    by_cases hf : fits d lb v B0
    · simp only [greedyInsert, hf, if_true] at hB
      rcases List.mem_cons.mp hB with hB1 | hB1
      · simp [hB1]
      · exact h B (List.mem_cons_of_mem _ hB1)
    · simp only [greedyInsert, hf, if_false] at hB
      rcases List.mem_cons.mp hB with hB1 | hB1
      · exact h B (hB1 ▸ List.mem_cons_self _ _)
      · exact ih (fun B hB => h B (List.mem_cons_of_mem _ hB)) B hB1

theorem greedyBoxes_ne_nil (d : ℕ → ℕ → ℕ) (lb : ℕ) (order : List ℕ) :
    ∀ B ∈ greedyBoxes d lb order, B ≠ [] := by
  suffices h : ∀ (ord : List ℕ) (Bs : List (List ℕ)), (∀ B ∈ Bs, B ≠ []) →
      ∀ B ∈ ord.foldl (fun Bs v => greedyInsert d lb v Bs) Bs, B ≠ [] by
    exact h order [] (by simp)
  intro ord
  induction ord with
  | nil => intro Bs h; simpa using h
  | cons v rest ih =>
    intro Bs h
    exact ih _ (greedyInsert_ne_nil d lb v Bs h)

theorem length_le_length_flatten {bs : List (List ℕ)}
    (h : ∀ B ∈ bs, B ≠ []) : bs.length ≤ bs.flatten.length := by
  induction bs with
  | nil => simp
  | cons B Bs ih =>
    have hB : B ≠ [] := h B (List.mem_cons_self _ _)
    have h1 : 1 ≤ B.length := by
      cases B with
      | nil => exact absurd rfl hB
      | cons a as => simp
    simp only [List.length_cons, List.flatten_cons, List.length_append]
    have := ih (fun B hB => h B (List.mem_cons_of_mem _ hB))
    omega

/-- The invariant of the lb family: all members of every box are pairwise
within `lb` of each other. -/
def LbValid (d : ℕ → ℕ → ℕ) (lb : ℕ) (Bs : List (List ℕ)) : Prop :=
  ∀ B ∈ Bs, ∀ u ∈ B, ∀ w ∈ B, d u w ≤ lb

theorem greedyInsert_lbValid {d : ℕ → ℕ → ℕ} {lb v : ℕ}
    (hs : ∀ u w, d u w = d w u) (h0 : ∀ u, d u u = 0) :
    ∀ {Bs : List (List ℕ)}, LbValid d lb Bs →
      LbValid d lb (greedyInsert d lb v Bs) := by
  intro Bs
  induction Bs with
  | nil =>
    intro _ B hB u hu w hw
    simp only [greedyInsert, List.mem_singleton] at hB
    subst hB
    simp only [List.mem_singleton] at hu hw
    subst hu; subst hw
    simp [h0]
  | cons B0 Bs ih =>
    intro hval B hB
    by_cases hf : fits d lb v B0
    · simp only [greedyInsert, hf, if_true] at hB
      rcases List.mem_cons.mp hB with hB1 | hB1
      · subst hB1
        intro u hu w hw
        have hfit : ∀ u ∈ B0, d u v ≤ lb := by
          intro u hu
          have := (List.all_eq_true.mp hf) u hu
          simpa using this
        have hold : ∀ u ∈ B0, ∀ w ∈ B0, d u w ≤ lb :=
          hval B0 (List.mem_cons_self _ _)
        rcases List.mem_cons.mp hu with hu1 | hu1 <;>
          rcases List.mem_cons.mp hw with hw1 | hw1
        · subst hu1; subst hw1; simp [h0]
        · subst hu1; rw [hs]; exact hfit w hw1
        · subst hw1; exact hfit u hu1
        · exact hold u hu1 w hw1
      · exact hval B (List.mem_cons_of_mem _ hB1)
    · simp only [greedyInsert, hf, if_false] at hB
      rcases List.mem_cons.mp hB with hB1 | hB1
      · exact hval B (hB1 ▸ List.mem_cons_self _ _)
      · exact ih (fun B hB => hval B (List.mem_cons_of_mem _ hB)) B hB1

/-- Every box of the greedy partition keeps its members pairwise within
`lb` of each other (given the basic distance-oracle laws). -/
theorem greedyBoxes_lbValid {d : ℕ → ℕ → ℕ} {lb : ℕ} (order : List ℕ)
    (hs : ∀ u w, d u w = d w u) (h0 : ∀ u, d u u = 0) :
    LbValid d lb (greedyBoxes d lb order) := by
  suffices h : ∀ (ord : List ℕ) (Bs : List (List ℕ)), LbValid d lb Bs →
      LbValid d lb (ord.foldl (fun Bs v => greedyInsert d lb v Bs) Bs) by
    exact h order [] (by intro B hB; cases hB)
  intro ord
  induction ord with
  | nil => intro Bs h; simpa using h
  | cons v rest ih =>
    intro Bs h
    exact ih _ (greedyInsert_lbValid hs h0 h)

/-- When every pair of nodes of the order is within `lb`, greedy coloring
puts everything into the single box opened by the first node. -/
theorem greedyBoxes_length_one {d : ℕ → ℕ → ℕ} {lb : ℕ} {order : List ℕ}
    (hne : order ≠ [])
    (hall : ∀ u ∈ order, ∀ w ∈ order, d u w ≤ lb) :
    (greedyBoxes d lb order).length = 1 := by
  have aux : ∀ (rest : List ℕ) (B : List ℕ),
      (∀ u ∈ B, u ∈ order) → (∀ u ∈ rest, u ∈ order) →
      ∃ B2, rest.foldl (fun Bs v => greedyInsert d lb v Bs) [B] = [B2] ∧
        ∀ u ∈ B2, u ∈ order := by
    intro rest
    induction rest with
    | nil => intro B hB _; exact ⟨B, rfl, hB⟩
    | cons v vs ih =>
      intro B hB hrest
      have hv : v ∈ order := hrest v (List.mem_cons_self _ _)
      have hf : fits d lb v B = true := by
        apply List.all_eq_true.mpr
        intro u hu
        simpa using hall u (hB u hu) v hv
      have hins : greedyInsert d lb v [B] = [v :: B] := by
        simp [greedyInsert, hf]
      have hB2 : ∀ u ∈ v :: B, u ∈ order := by
        intro u hu
        rcases List.mem_cons.mp hu with h1 | h1
        · exact h1 ▸ hv
        · exact hB u h1
      have := ih (v :: B) hB2 (fun u hu => hrest u (List.mem_cons_of_mem _ hu))
      simpa [hins] using this
  cases order with
  | nil => exact absurd rfl hne
  | cons v rest =>
    have h1 : greedyBoxes d lb (v :: rest) =
        rest.foldl (fun Bs v => greedyInsert d lb v Bs) [[v]] := by
      simp [greedyBoxes, greedyInsert]
    have hone : ∀ u ∈ [v], u ∈ v :: rest := by
      intro u hu
      rw [List.mem_singleton.mp hu]
      exact List.mem_cons_self _ _
    rcases aux rest [v] hone (fun u hu => List.mem_cons_of_mem _ hu)
      with ⟨B2, hB2, _⟩
    rw [h1, hB2]
    rfl

/-- The number of boxes that contain `v`. -/
def boxesContaining (v : ℕ) (bs : List (List ℕ)) : ℕ :=
  bs.countP (fun B => decide (v ∈ B))

theorem boxesContaining_eq_zero {v : ℕ} {bs : List (List ℕ)}
    (h : v ∉ bs.flatten) : boxesContaining v bs = 0 := by
  induction bs with
  | nil => rfl
  | cons B Bs ih =>
    simp only [List.flatten_cons, List.mem_append, not_or] at h
    have h2 := ih h.2
    simp only [boxesContaining, List.countP_cons] at h2 ⊢
    simp [h.1, h2, boxesContaining]

/-- In a family of boxes whose concatenation has no duplicates, each node
of the concatenation lies in exactly one box. -/
theorem boxesContaining_eq_one {v : ℕ} {bs : List (List ℕ)}
    (hnd : bs.flatten.Nodup) (hv : v ∈ bs.flatten) :
    boxesContaining v bs = 1 := by
  induction bs with
  | nil => cases hv
  | cons B Bs ih =>
    simp only [List.flatten_cons] at hnd hv
    rcases List.nodup_append.mp hnd with ⟨hB, hBs, hdis⟩
    rcases List.mem_append.mp hv with h1 | h1
    · have h0 : boxesContaining v Bs = 0 :=
        boxesContaining_eq_zero (fun hc => hdis h1 hc)
      simp only [boxesContaining, List.countP_cons] at h0 ⊢
      simp [h1, h0]
    · have hvB : v ∉ B := fun hc => hdis hc h1
      have h2 := ih hBs h1
      simp only [boxesContaining, List.countP_cons] at h2 ⊢
      simp [hvB, h2]

theorem toFinset_map_const {B : List ℕ} (h : B ≠ []) (i : ℕ) :
    (B.map (fun _ => i)).toFinset = {i} := by
  ext x
  simp only [List.mem_toFinset, List.mem_map, Finset.mem_singleton]
  constructor
  · rintro ⟨a, _, ha⟩; exact ha.symm
  · rintro rfl
    rcases List.exists_mem_of_ne_nil B h with ⟨b, hb⟩
    exact ⟨b, hb, rfl⟩

theorem partitionFrom_snd_toFinset :
    ∀ (bs : List (List ℕ)) (i : ℕ), (∀ B ∈ bs, B ≠ []) →
      ((partitionFrom i bs).map Prod.snd).toFinset =
        Finset.Ico i (i + bs.length) := by
  intro bs
  induction bs with
  | nil => intro i _; simp [partitionFrom]
  | cons B Bs ih =>
    intro i h
    have hB : B ≠ [] := h B (List.mem_cons_self _ _)
    have hrec := ih (i + 1) (fun B hB => h B (List.mem_cons_of_mem _ hB))
    simp only [partitionFrom, List.map_append, List.toFinset_append,
      List.map_map]
    have hconst : (B.map (Prod.snd ∘ fun v => (v, i))).toFinset = {i} := by
      have : Prod.snd ∘ (fun v : ℕ => (v, i)) = fun _ => i := rfl
      rw [this, toFinset_map_const hB]
    rw [hconst, hrec]
    ext x
    simp only [Finset.mem_union, Finset.mem_singleton, Finset.mem_Ico,
      List.length_cons]
    omega

/-- In `boxing=True` mode the algorithm reports exactly the number of
distinct box identifiers of the `boxing=False` partition. -/
theorem distinctBoxCount_partitionOf {bs : List (List ℕ)}
    (h : ∀ B ∈ bs, B ≠ []) : distinctBoxCount (partitionOf bs) = bs.length := by
  have h1 : ((partitionOf bs).map Prod.snd).toFinset =
      Finset.Ico 0 (0 + bs.length) := partitionFrom_snd_toFinset bs 0 h
  have h2 : distinctBoxCount (partitionOf bs) =
      ((partitionOf bs).map Prod.snd).toFinset.card :=
    (List.card_toFinset _).symm
  rw [h2, h1]
  simp [Nat.card_Ico]

/-! ## Random sequential covering (rb family) and the shared PRNG

Modelled from the spec: `boxes.random_sequential` is not under `src/`.
Per §4.2, the algorithm "picks an uncovered node uniformly at random as
center, covers its ball of radius `rb`, repeats".  The process-wide
seedable pseudo-random stream of §5 is modelled as an explicit natural
state advanced by a linear congruential step; seeding replaces the whole
state.  Each produced box records its designated center. -/

/-- One step of the modelled process-wide pseudo-random stream. -/
def rngNext (s : ℕ) : ℕ := (1103515245 * s + 12345) % 2 ^ 31

/-- The value drawn from the current pseudo-random state. -/
def rngOut (s : ℕ) : ℕ := rngNext s / 2 ^ 8

theorem length_filter_le_of_erase {c : ℕ} {l : List ℕ}
    (hc : c ∈ l) (p : ℕ → Bool) :
    ((l.erase c).filter p).length < l.length := by
  have h1 : ((l.erase c).filter p).length ≤ (l.erase c).length :=
    List.length_filter_le _ _
  have h2 : (l.erase c).length = l.length - 1 := List.length_erase_of_mem hc
  have h3 : 0 < l.length := List.length_pos.mpr (List.ne_nil_of_mem hc)
  omega

theorem getD_mem {l : List ℕ} (i : ℕ) {dflt : ℕ} (h : dflt ∈ l) :
    l.getD i dflt ∈ l := by
  rcases Nat.lt_or_ge i l.length with hi | hi
  · rw [List.getD_eq_getElem l dflt hi]
    exact List.getElem_mem hi
  · rw [List.getD_eq_default l dflt hi]
    exact h

/-- The uniformly random center drawn from the uncovered nodes
`u :: us`. -/
def rsCenter (rng u : ℕ) (us : List ℕ) : ℕ :=
  (u :: us).getD (rngOut rng % (u :: us).length) u

/-- The ball of radius `rb` around the chosen center, within the
uncovered nodes: the next box. -/
def rsBox (d : ℕ → ℕ → ℕ) (rb rng u : ℕ) (us : List ℕ) : List ℕ :=
  rsCenter rng u us ::
    ((u :: us).erase (rsCenter rng u us)).filter
      (fun v => decide (d (rsCenter rng u us) v ≤ rb))

/-- The nodes still uncovered after the ball is covered. -/
def rsRest (d : ℕ → ℕ → ℕ) (rb rng u : ℕ) (us : List ℕ) : List ℕ :=
  ((u :: us).erase (rsCenter rng u us)).filter
    (fun v => decide (¬ d (rsCenter rng u us) v ≤ rb))

theorem rsCenter_mem (rng u : ℕ) (us : List ℕ) : rsCenter rng u us ∈ u :: us :=
  getD_mem _ (List.mem_cons_self _ _)

theorem rsRest_length_lt (d : ℕ → ℕ → ℕ) (rb rng u : ℕ) (us : List ℕ) :
    (rsRest d rb rng u us).length < (u :: us).length :=
  length_filter_le_of_erase (rsCenter_mem rng u us) _

/-- The boxes (center, members) produced by random sequential covering,
consuming the pseudo-random state. -/
def random_sequential_go (d : ℕ → ℕ → ℕ) (rb : ℕ) :
    ℕ → List ℕ → List (ℕ × List ℕ)
  | _, [] => []
  | rng, u :: us =>
    (rsCenter rng u us, rsBox d rb rng u us) ::
      random_sequential_go d rb (rngNext rng) (rsRest d rb rng u us)
  termination_by rng unc => unc.length
  decreasing_by
    exact rsRest_length_lt d rb rng u us

theorem rsBox_append_rsRest_perm (d : ℕ → ℕ → ℕ) (rb rng u : ℕ)
    (us : List ℕ) :
    (rsBox d rb rng u us ++ rsRest d rb rng u us).Perm (u :: us) := by
  have hfun : (fun v => decide (¬ d (rsCenter rng u us) v ≤ rb)) =
      fun v => ! decide (d (rsCenter rng u us) v ≤ rb) := by
    funext v; exact decide_not
  simp only [rsBox, rsRest, List.cons_append, hfun]
  exact List.Perm.trans
    (List.Perm.cons _ (List.filter_append_perm _ _))
    (List.perm_cons_erase (rsCenter_mem rng u us)).symm

theorem random_sequential_go_spec (d : ℕ → ℕ → ℕ) (rb : ℕ) :
    ∀ (n rng : ℕ) (unc : List ℕ), unc.length ≤ n →
      (((random_sequential_go d rb rng unc).map Prod.snd).flatten).Perm unc ∧
      ∀ cB ∈ random_sequential_go d rb rng unc,
        ∀ v ∈ cB.2, v = cB.1 ∨ d cB.1 v ≤ rb := by
  intro n
  induction n with
  | zero =>
    intro rng unc h
    have hnil : unc = [] := List.eq_nil_of_length_eq_zero (Nat.le_zero.mp h)
    subst hnil
    refine ⟨by simp [random_sequential_go], ?_⟩
    intro cB hcB
    simp [random_sequential_go] at hcB
  | succ n ih =>
    intro rng unc h
    cases unc with
    | nil =>
      refine ⟨by simp [random_sequential_go], ?_⟩
      intro cB hcB
      simp [random_sequential_go] at hcB
    | cons u us =>
      have hlen := rsRest_length_lt d rb rng u us
      have hrec := ih (rngNext rng) (rsRest d rb rng u us)
        (by simp only [List.length_cons] at hlen h; omega)
      have hunf : random_sequential_go d rb rng (u :: us) =
          (rsCenter rng u us, rsBox d rb rng u us) ::
            random_sequential_go d rb (rngNext rng) (rsRest d rb rng u us) := by
        simp [random_sequential_go]
      constructor
      · rw [hunf]
        simp only [List.map_cons, List.flatten_cons]
        exact List.Perm.trans (List.Perm.append_left _ hrec.1)
          (rsBox_append_rsRest_perm d rb rng u us)
      · rw [hunf]
        intro cB hcB
        rcases List.mem_cons.mp hcB with h1 | h1
        · subst h1
          intro v hv
          simp only [rsBox] at hv
          rcases List.mem_cons.mp hv with h2 | h2
          · exact Or.inl h2
          · right
            have h3 := List.mem_filter.mp h2
            simpa using h3.2
        · exact hrec.2 cB h1

/-- The boxes of random sequential covering are a rearrangement of the
input node list. -/
theorem random_sequential_flatten_perm (d : ℕ → ℕ → ℕ) (rb rng : ℕ)
    (unc : List ℕ) :
    (((random_sequential_go d rb rng unc).map Prod.snd).flatten).Perm unc :=
  (random_sequential_go_spec d rb unc.length rng unc le_rfl).1

/-- Every member of every random-sequential box lies within `rb` of the
box's designated center. -/
theorem random_sequential_rbValid {d : ℕ → ℕ → ℕ} (rb rng : ℕ)
    (unc : List ℕ) (h0 : ∀ u, d u u = 0) :
    ∀ cB ∈ random_sequential_go d rb rng unc, ∀ v ∈ cB.2, d cB.1 v ≤ rb := by
  intro cB hcB v hv
  rcases (random_sequential_go_spec d rb unc.length rng unc le_rfl).2
      cB hcB v hv with h1 | h1
  · rw [h1, h0]
    exact Nat.zero_le _
  · exact h1

/-- Modelled from the spec: `random_sequential(network, rb, boxing)`
returns the box count when `boxing` is true and the partition (as boxes
with their designated centers) otherwise. -/
def random_sequential (d : ℕ → ℕ → ℕ) (rb : ℕ) (rng : ℕ) (nodes : List ℕ)
    (boxing : Bool) : ℕ ⊕ List (ℕ × List ℕ) :=
  if boxing then Sum.inl (random_sequential_go d rb rng nodes).length
  else Sum.inr (random_sequential_go d rb rng nodes)

/-- Modelled from the spec: seeding the process-wide pseudo-random stream
(`random.seed` / `np.random.seed`) replaces its whole state with a value
determined by the seed. -/
def seedState (seed : ℕ) : ℕ := seed

/-- Modelled from the spec: the caller's reproducibility protocol — seed
the shared stream, invoke the stochastic algorithm (which reads the
stream state), re-seed with the same value, invoke again; both results
are collected. -/
def runSeededTwice {α : Type} (seed : ℕ) (algorithm : ℕ → α) : α × α :=
  let s1 := seedState seed
  let r1 := algorithm s1
  let s2 := seedState seed
  let r2 := algorithm s2
  (r1, r2)

/-! ## The logging harness (`boxes.io`)

Modelled from the spec: `boxes.io` is not under `src/`.  Log files are
flat line-oriented text, modelled as lists of character codes (48–57 are
digits, 32 the field separator, 10 the line terminator).  Each
`LogRecord` holds the box-size parameter, the resulting box count and
the recorded elapsed time; numeric fields are modelled as naturals. -/

/-- One reproducible measurement appended to a log file. -/
structure LogRecord where
  box_size : ℕ
  result : ℕ
  t : ℕ
  deriving DecidableEq, Repr

/-- Decimal encoding of a natural as character codes (Python `str(n)`). -/
def encodeNat (n : ℕ) : List ℕ :=
  if n = 0 then [48] else (Nat.digits 10 n).reverse.map (fun d => 48 + d)

/-- Decimal parsing of character codes back to a natural. -/
def decodeNat (cs : List ℕ) : ℕ :=
  Nat.ofDigits 10 ((cs.map (fun c => c - 48)).reverse)

theorem decodeNat_encodeNat (n : ℕ) : decodeNat (encodeNat n) = n := by
  by_cases h : n = 0
  · subst h; decide
  · simp only [encodeNat, h, if_false, decodeNat, List.map_map,
      List.map_reverse, List.reverse_reverse]
    have hfun : ((fun c => c - 48) ∘ fun d : ℕ => 48 + d) = id := by
      funext d; simp
    rw [hfun, List.map_id]
    exact Nat.ofDigits_digits 10 n

theorem encodeNat_mem_range {n c : ℕ} (h : c ∈ encodeNat n) :
    48 ≤ c ∧ c ≤ 57 := by
  by_cases h0 : n = 0
  · subst h0
    simp [encodeNat] at h
    omega
  · simp only [encodeNat, h0, if_false, List.mem_map, List.mem_reverse] at h
    rcases h with ⟨d, hd, hc⟩
    have : d < 10 := Nat.digits_lt_base (by norm_num) hd
    omega

theorem newline_not_mem_encodeNat (n : ℕ) : 10 ∉ encodeNat n := by
  intro h
  have := encodeNat_mem_range h
  omega

theorem space_not_mem_encodeNat (n : ℕ) : 32 ∉ encodeNat n := by
  intro h
  have := encodeNat_mem_range h
  omega

/-- Split a code list at every occurrence of the separator. -/
def splitSep (sep : ℕ) : List ℕ → List (List ℕ)
  | [] => [[]]
  | c :: cs =>
    if c = sep then [] :: splitSep sep cs
    else
      match splitSep sep cs with
      | [] => [[c]]
      | w :: ws => (c :: w) :: ws

theorem splitSep_ne_nil (sep : ℕ) (l : List ℕ) : splitSep sep l ≠ [] := by
  induction l with
  | nil => simp [splitSep]
  | cons c cs ih =>
    by_cases h : c = sep
    · simp [splitSep, h]
    · simp only [splitSep, h, if_false]
      cases hs : splitSep sep cs with
      | nil => simp
      | cons w ws => simp

theorem splitSep_sep_free {sep : ℕ} {w : List ℕ} (h : sep ∉ w) :
    splitSep sep w = [w] := by
  induction w with
  | nil => rfl
  | cons c cs ih =>
    have hc : c ≠ sep := fun hc => h (hc ▸ List.mem_cons_self _ _)
    have hrec := ih (fun hm => h (List.mem_cons_of_mem _ hm))
    simp [splitSep, hc, hrec]

theorem splitSep_append {sep : ℕ} {w : List ℕ} (h : sep ∉ w) (r : List ℕ) :
    splitSep sep (w ++ sep :: r) = w :: splitSep sep r := by
  induction w with
  | nil => simp [splitSep]
  | cons c cs ih =>
    have hc : c ≠ sep := fun hc => h (hc ▸ List.mem_cons_self _ _)
    have hrec := ih (fun hm => h (List.mem_cons_of_mem _ hm))
    simp only [List.cons_append, splitSep, hc, if_false, List.append_eq, hrec]

/-- The line the harness writes for one record:
`{box_size} {result} {time}`. -/
def encodeRecord (r : LogRecord) : List ℕ :=
  encodeNat r.box_size ++ 32 :: (encodeNat r.result ++ 32 :: encodeNat r.t)

/-- Parse one log line back into a record. -/
def parseLine (cs : List ℕ) : Option LogRecord :=
  match splitSep 32 cs with
  | [a, b, c] => some ⟨decodeNat a, decodeNat b, decodeNat c⟩
  | _ => none

/-- The log file produced by appending one line per record. -/
def writeLog (rs : List LogRecord) : List ℕ :=
  rs.flatMap (fun r => encodeRecord r ++ [10])

/-- Modelled from the spec: `read_logfile` parses a previously written
log back into the sequence of records. -/
def read_logfile (file : List ℕ) : List LogRecord :=
  (splitSep 10 file).filterMap parseLine

theorem parseLine_encodeRecord (r : LogRecord) :
    parseLine (encodeRecord r) = some r := by
  have h1 : splitSep 32 (encodeRecord r) =
      [encodeNat r.box_size, encodeNat r.result, encodeNat r.t] := by
    rw [encodeRecord, splitSep_append (space_not_mem_encodeNat _),
      splitSep_append (space_not_mem_encodeNat _),
      splitSep_sep_free (space_not_mem_encodeNat _)]
  simp [parseLine, h1, decodeNat_encodeNat]

theorem newline_not_mem_encodeRecord (r : LogRecord) :
    10 ∉ encodeRecord r := by
  intro h
  simp only [encodeRecord, List.mem_append, List.mem_cons] at h
  rcases h with h | h | h
  · exact newline_not_mem_encodeNat _ h
  · omega
  · rcases h with h | h | h
    · exact newline_not_mem_encodeNat _ h
    · omega
    · exact newline_not_mem_encodeNat _ h

theorem splitSep_writeLog (rs : List LogRecord) :
    splitSep 10 (writeLog rs) = rs.map encodeRecord ++ [[]] := by
  induction rs with
  | nil => rfl
  | cons r rs ih =>
    have h1 : writeLog (r :: rs) = encodeRecord r ++ 10 :: writeLog rs := by
      simp [writeLog]
    rw [h1, splitSep_append (newline_not_mem_encodeRecord r), ih]
    rfl

theorem parseLine_nil : parseLine [] = none := rfl

theorem read_logfile_writeLog (rs : List LogRecord) :
    read_logfile (writeLog rs) = rs := by
  rw [read_logfile, splitSep_writeLog, List.filterMap_append]
  have h1 : (rs.map encodeRecord).filterMap parseLine = rs := by
    induction rs with
    | nil => rfl
    | cons r rs ih =>
      simp only [List.map_cons, List.filterMap_cons, parseLine_encodeRecord,
        ih]
  rw [h1]
  simp [parseLine_nil]

/-! ## The boxing driver `run_boxing`

Modelled from the spec (§4.4) together with the notebook's own comment
`rb=range(1,7) # break statement in run_boxing`: `run_boxing` walks the
ordered box sizes, invokes the algorithm once per size, appends one log
record per invocation with the elapsed time plus `time_offset`, and
breaks out of the loop once an invocation reports a box count of 1
(larger sizes trivially also give one box).  Wall-clock time is modelled
by the abstract per-size cost `elapsed`. -/
def run_boxing (time_offset : ℕ) (elapsed : ℕ → ℕ) (alg : ℕ → ℕ) :
    List ℕ → List LogRecord
  | [] => []
  | s :: rest =>
    ⟨s, alg s, elapsed s + time_offset⟩ ::
      (if alg s = 1 then [] else run_boxing time_offset elapsed alg rest)

/-- The prefix of a list up to and including the first element satisfying
`p`. -/
def takeThrough (p : ℕ → Prop) [DecidablePred p] : List ℕ → List ℕ
  | [] => []
  | a :: as => a :: (if p a then [] else takeThrough p as)

/-- What `run_boxing` actually logs: one record per box size of the
prefix that ends at the first size whose box count is 1. -/
theorem run_boxing_eq_takeThrough (time_offset : ℕ) (elapsed : ℕ → ℕ)
    (alg : ℕ → ℕ) (sizes : List ℕ) :
    run_boxing time_offset elapsed alg sizes =
      (takeThrough (fun s => alg s = 1) sizes).map
        (fun s => ⟨s, alg s, elapsed s + time_offset⟩) := by
  induction sizes with
  | nil => rfl
  | cons s rest ih =>
    by_cases h : alg s = 1
    · simp [run_boxing, takeThrough, h]
    · simp [run_boxing, takeThrough, h, ih]

/-! ## The log-path helper `path_`

Embedded from the source notebook (cell defining `path_`).  Python's
`'grid' in net` is substring containment, `net[-2:]` the last two
characters. -/

/-- Python `'grid' in net`. -/
def gridIn (net : String) : Bool := decide ("grid".toList <:+: net.toList)

/-- Python `net[-2:]`. -/
def last2 (net : String) : String :=
  String.mk (net.toList.drop (net.toList.length - 2))

/-- The log-file path helper of the notebook (`path_(net, alg, bench)`). -/
def path_ (net : String) (alg : Option String := none)
    (bench : Bool := false) : String :=
  match alg with
  | none =>
    if gridIn net then "../../result_logs/grid2d/" ++ last2 net ++ "/"
    else "../../result_logs/" ++ net ++ "/"
  | some a =>
    if gridIn net then
      let p := "../../result_logs/grid2d/" ++ last2 net ++ "/" ++ net
        ++ "_" ++ a
      if bench then p ++ "_benchmark.txt" else p ++ ".txt"
    else
      if bench then
        "../../result_logs/" ++ net ++ "/" ++ net ++ "_" ++ a
          ++ "_benchmark.txt"
      else "../../result_logs/" ++ net ++ "/" ++ net ++ "_" ++ a ++ ".txt"

/-! ## The driver `boxing_all`

Embedded from the source notebook as the sequence of effects it
performs.  Timing values are represented symbolically: `shared` is the
`time_offset` measured for the initial `network.get_dist_dict()`
precomputation, while `freshMerge` / `freshFuzzy` are the `new_offset`
values measured when the distance cache is dropped and recomputed inside
the `merge` / `fuzzy` branches. -/

/-- Which measured time offset a `run_boxing` call receives. -/
inductive OffsetSrc where
  | shared
  | freshMerge
  | freshFuzzy
  deriving DecidableEq, Repr

/-- The `box_sizes` argument: the full sweep (list-like) or the single
scalar `lb[-1]` that the merge branch passes. -/
inductive SizesArg where
  | sweep : List ℕ → SizesArg
  | single : ℕ → SizesArg
  deriving DecidableEq, Repr

/-- One observable effect of `boxing_all`. -/
inductive Ev where
  | seedEv
  | benchmarkEv (alg : String) (sizes : List ℕ)
  | dropCache
  | recomputeCache (tag : OffsetSrc)
  | runBoxingEv (alg : String) (offset : OffsetSrc) (sizes : SizesArg)
      (mergeAlg : Bool)
  deriving DecidableEq, Repr

/-- The keys of the `algs_lb` registry, in insertion order. -/
def algs_lb_keys : List String := ["cbb", "greedy", "merge", "obca", "fuzzy"]

/-- The keys of the `algs_rb` registry, in insertion order. -/
def algs_rb_keys : List String :=
  ["mcwr_0.75", "mcwr_0.5", "mcwr_0.25", "memb", "random_sequential",
   "remcc"]

/-- One iteration of `boxing_all`'s loop over `algs_lb`. -/
def lbStep (lb : List ℕ) (alg : String) : List Ev :=
  Ev.seedEv ::
    (if alg ≠ "merge" ∧ alg ≠ "fuzzy" then
      [Ev.runBoxingEv alg OffsetSrc.shared (SizesArg.sweep lb) false]
    else if alg = "merge" then
      [Ev.dropCache, Ev.recomputeCache OffsetSrc.freshMerge,
       Ev.runBoxingEv alg OffsetSrc.freshMerge
         (SizesArg.single (lb.getLastD 0)) true]
    else
      [Ev.dropCache, Ev.recomputeCache OffsetSrc.freshFuzzy,
       Ev.runBoxingEv alg OffsetSrc.freshFuzzy (SizesArg.sweep lb) false])

/-- One iteration of `boxing_all`'s loop over `algs_rb`; the
`algorithm!='merge'` guard leaves an implicit skip branch. -/
def rbStep (rb : List ℕ) (alg : String) : List Ev :=
  Ev.seedEv ::
    (if alg ≠ "merge" then
      [Ev.runBoxingEv alg OffsetSrc.shared (SizesArg.sweep rb) false]
    else [])

/-- The effect sequence of `boxing_all(network, net, lb, rb)`. -/
def boxing_all (lb rb : List ℕ) : List Ev :=
  Ev.benchmarkEv "greedy" lb ::
    (algs_lb_keys.flatMap (lbStep lb) ++ algs_rb_keys.flatMap (rbStep rb))

/-- Project out the `run_boxing` invocations of the `merge` algorithm. -/
def mergeRuns (evs : List Ev) : List (OffsetSrc × SizesArg × Bool) :=
  evs.filterMap (fun e =>
    match e with
    | Ev.runBoxingEv alg off sz m =>
      if alg = "merge" then some (off, sz, m) else none
    | _ => none)

/-! ## Networks and the largest connected component

The notebook's `read_max_connected_component` is embedded here.  The
underlying graph (as produced by `boxes.read_from_edgelist`) is a finite
undirected simple graph; `nx.is_connected` / `nx.connected_components`
are third-party collaborators and are modelled by an executable
breadth-first saturation, which is proved below to compute exactly the
reflexive-transitive closure of adjacency (the mathematical connected
component). -/

/-- A finite undirected graph: a vertex set and an edge set (an edge may
be recorded in either orientation). -/
structure PyGraph where
  verts : Finset ℕ
  edges : Finset (ℕ × ℕ)
  deriving DecidableEq

/-- Adjacency test (undirected). -/
def adjB (g : PyGraph) (a b : ℕ) : Bool :=
  decide ((a, b) ∈ g.edges ∨ (b, a) ∈ g.edges)

/-- One saturation step: add every vertex adjacent to the current set. -/
def gstep (g : PyGraph) (s : Finset ℕ) : Finset ℕ :=
  s ∪ g.verts.filter (fun v => ∃ u ∈ s, adjB g u v = true)

/-- The connected component of `v`, computed by saturating for
`|verts|` steps. -/
def comp (g : PyGraph) (v : ℕ) : Finset ℕ := (gstep g)^[g.verts.card] {v}

/-- Mathematical adjacency: both endpoints are vertices and the edge is
present. -/
def Adj (g : PyGraph) (a b : ℕ) : Prop :=
  a ∈ g.verts ∧ b ∈ g.verts ∧ adjB g a b = true

/-- Mathematical reachability: the reflexive-transitive closure of
adjacency. -/
def Reach (g : PyGraph) : ℕ → ℕ → Prop := Relation.ReflTransGen (Adj g)

/-- Modelled third-party `nx.is_connected`. -/
def isConnected (g : PyGraph) : Bool :=
  decide (∀ v ∈ g.verts, ∀ u ∈ g.verts, u ∈ comp g v)

/-- First-maximum scan over candidate component centers (Python's `max`
keeps the first maximum under `key=len`). -/
def pickMax (g : PyGraph) : List ℕ → ℕ → ℕ
  | [], best => best
  | v :: vs, best =>
    pickMax g vs (if (comp g best).card < (comp g v).card then v else best)

/-- A center of a maximum-cardinality connected component. -/
def maxCompCenter (g : PyGraph) : ℕ :=
  match g.verts.sort (· ≤ ·) with
  | [] => 0
  | v :: vs => pickMax g vs v

/-- Embedded from the notebook: wrap the whole graph if it is connected,
otherwise wrap the subgraph induced by the largest connected component.
The resulting `Network`'s node set is returned. -/
def read_max_connected_component (g : PyGraph) : Finset ℕ :=
  if isConnected g then g.verts else comp g (maxCompCenter g)

theorem subset_gstep (g : PyGraph) (s : Finset ℕ) : s ⊆ gstep g s :=
  Finset.subset_union_left

theorem iterate_gstep_subset_verts {g : PyGraph} {v : ℕ} (hv : v ∈ g.verts) :
    ∀ n, (gstep g)^[n] {v} ⊆ g.verts := by
  intro n
  induction n with
  | zero => simpa using hv
  | succ n ih =>
    rw [Function.iterate_succ_apply']
    intro x hx
    rcases Finset.mem_union.mp hx with hx | hx
    · exact ih hx
    · exact (Finset.mem_filter.mp hx).1

theorem mem_iterate_gstep_self (g : PyGraph) (v : ℕ) :
    ∀ n, v ∈ (gstep g)^[n] {v} := by
  intro n
  induction n with
  | zero => simp
  | succ n ih =>
    rw [Function.iterate_succ_apply']
    exact subset_gstep g _ ih

theorem iterate_gstep_sound {g : PyGraph} {v : ℕ} (hv : v ∈ g.verts) :
    ∀ n, ∀ x ∈ (gstep g)^[n] {v}, Reach g v x := by
  intro n
  induction n with
  | zero =>
    intro x hx
    rw [Function.iterate_zero_apply] at hx
    rw [Finset.mem_singleton.mp hx]
    exact Relation.ReflTransGen.refl
  | succ n ih =>
    intro x hx
    rw [Function.iterate_succ_apply'] at hx
    rcases Finset.mem_union.mp hx with hx | hx
    · exact ih x hx
    · rcases Finset.mem_filter.mp hx with ⟨hxv, u, hu, hadj⟩
      exact Relation.ReflTransGen.tail (ih u hu)
        ⟨iterate_gstep_subset_verts hv n hu, hxv, hadj⟩

theorem reach_mem_of_fixed {g : PyGraph} {s : Finset ℕ}
    (hfix : gstep g s = s) {v : ℕ} (hv : v ∈ s) :
    ∀ {x : ℕ}, Reach g v x → x ∈ s := by
  intro x hx
  induction hx with
  | refl => exact hv
  | tail h1 h2 ih =>
    rcases h2 with ⟨hb, hc, hadj⟩
    have : _ ∈ gstep g s := Finset.mem_union_right _
      (Finset.mem_filter.mpr ⟨hc, _, ih, hadj⟩)
    exact hfix ▸ this

theorem iterate_gstep_of_fixed {g : PyGraph} {s : Finset ℕ}
    (hfix : gstep g s = s) : ∀ m, (gstep g)^[m] s = s := by
  intro m
  induction m with
  | zero => rfl
  | succ m ih => rw [Function.iterate_succ_apply, hfix, ih]

theorem iterate_gstep_card_grow {g : PyGraph} {v : ℕ} :
    ∀ n, (∀ k < n, (gstep g)^[k] {v} ≠ (gstep g)^[k + 1] {v}) →
      n + 1 ≤ ((gstep g)^[n] {v}).card := by
  intro n
  induction n with
  | zero => simp
  | succ n ih =>
    intro h
    have h1 : n + 1 ≤ ((gstep g)^[n] {v}).card :=
      ih (fun k hk => h k (Nat.lt_succ_of_lt hk))
    have hsub : (gstep g)^[n] {v} ⊆ (gstep g)^[n + 1] {v} := by
      rw [Function.iterate_succ_apply']
      exact subset_gstep g _
    have hne : (gstep g)^[n] {v} ≠ (gstep g)^[n + 1] {v} :=
      h n (Nat.lt_succ_self n)
    have hcard : ((gstep g)^[n] {v}).card < ((gstep g)^[n + 1] {v}).card :=
      Finset.card_lt_card (Finset.ssubset_iff_subset_ne.mpr ⟨hsub, hne⟩)
    omega

theorem comp_fixed {g : PyGraph} {v : ℕ} (hv : v ∈ g.verts) :
    gstep g (comp g v) = comp g v := by
  by_cases hex : ∃ k < g.verts.card,
      (gstep g)^[k] {v} = (gstep g)^[k + 1] {v}
  · rcases hex with ⟨k, hk, hfixk⟩
    have hfix : gstep g ((gstep g)^[k] {v}) = (gstep g)^[k] {v} :=
      calc gstep g ((gstep g)^[k] {v})
          = (gstep g)^[k + 1] {v} := (Function.iterate_succ_apply' _ _ _).symm
        _ = (gstep g)^[k] {v} := hfixk.symm
    have hstable : ∀ m, (gstep g)^[k + m] {v} = (gstep g)^[k] {v} := by
      intro m
      rw [Nat.add_comm, Function.iterate_add_apply]
      exact iterate_gstep_of_fixed hfix m
    have hN : comp g v = (gstep g)^[k] {v} := by
      have := hstable (g.verts.card - k)
      rw [comp]
      rw [show k + (g.verts.card - k) = g.verts.card by omega] at this
      exact this
    rw [hN, hfix]
  · push_neg at hex
    have hgrow := iterate_gstep_card_grow g.verts.card hex
    have hle : ((gstep g)^[g.verts.card] {v}).card ≤ g.verts.card :=
      Finset.card_le_card (iterate_gstep_subset_verts hv _)
    omega

/-- The saturation computes exactly the mathematical connected
component. -/
theorem mem_comp_iff {g : PyGraph} {v : ℕ} (hv : v ∈ g.verts) (x : ℕ) :
    x ∈ comp g v ↔ Reach g v x := by
  constructor
  · exact fun h => iterate_gstep_sound hv _ x h
  · exact fun h => reach_mem_of_fixed (comp_fixed hv)
      (mem_iterate_gstep_self g v _) h

theorem comp_coe {g : PyGraph} {v : ℕ} (hv : v ∈ g.verts) :
    (↑(comp g v) : Set ℕ) = {x | Reach g v x} := by
  ext x
  simpa using mem_comp_iff hv x

theorem pickMax_spec (g : PyGraph) :
    ∀ (vs : List ℕ) (best : ℕ),
      (pickMax g vs best = best ∨ pickMax g vs best ∈ vs) ∧
      (comp g best).card ≤ (comp g (pickMax g vs best)).card ∧
      ∀ u ∈ vs, (comp g u).card ≤ (comp g (pickMax g vs best)).card := by
  intro vs
  induction vs with
  | nil =>
    intro best
    exact ⟨Or.inl rfl, le_rfl, by simp⟩
  | cons v vs ih =>
    intro best
    set b2 := if (comp g best).card < (comp g v).card then v else best with hb2
    have hrec := ih b2
    have hmem : pickMax g (v :: vs) best = pickMax g vs b2 := by
      simp [pickMax, hb2]
    have hbest : (comp g best).card ≤ (comp g b2).card := by
      rw [hb2]
      by_cases h : (comp g best).card < (comp g v).card
      · simp [h]; omega
      · simp [h]
    have hv2 : (comp g v).card ≤ (comp g b2).card := by
      rw [hb2]
      by_cases h : (comp g best).card < (comp g v).card
      · simp [h]
      · simp [h]; omega
    refine ⟨?_, ?_, ?_⟩
    · rw [hmem]
      rcases hrec.1 with h | h
      · rw [h, hb2]
        by_cases hc : (comp g best).card < (comp g v).card
        · simp [hc]
        · simp [hc]
      · exact Or.inr (List.mem_cons_of_mem _ h)
    · rw [hmem]
      exact le_trans hbest hrec.2.1
    · intro u hu
      rw [hmem]
      rcases List.mem_cons.mp hu with h | h
      · exact h ▸ le_trans hv2 hrec.2.1
      · exact hrec.2.2 u h

theorem maxCompCenter_spec {g : PyGraph} (hne : g.verts.Nonempty) :
    maxCompCenter g ∈ g.verts ∧
      ∀ u ∈ g.verts, (comp g u).card ≤ (comp g (maxCompCenter g)).card := by
  rcases hne with ⟨v0, hv0⟩
  have hsort : v0 ∈ g.verts.sort (· ≤ ·) := (Finset.mem_sort _).mpr hv0
  cases hs : g.verts.sort (· ≤ ·) with
  | nil => rw [hs] at hsort; cases hsort
  | cons v vs =>
    have hspec := pickMax_spec g vs v
    have hcenter : maxCompCenter g = pickMax g vs v := by
      rw [maxCompCenter, hs]
    constructor
    · rw [hcenter]
      rcases hspec.1 with h | h
      · rw [h]
        have : v ∈ g.verts.sort (· ≤ ·) := by rw [hs]; exact List.mem_cons_self _ _
        exact (Finset.mem_sort _).mp this
      · have : pickMax g vs v ∈ g.verts.sort (· ≤ ·) := by
          rw [hs]; exact List.mem_cons_of_mem _ h
        exact (Finset.mem_sort _).mp this
    · intro u hu
      have husort : u ∈ g.verts.sort (· ≤ ·) := (Finset.mem_sort _).mpr hu
      rw [hs] at husort
      rw [hcenter]
      rcases List.mem_cons.mp husort with h | h
      · exact h ▸ hspec.2.1
      · exact hspec.2.2 u h


/-! ## The claims -/

/-- C1: For every network (any distance oracle obeying the basic metric
laws), the `boxing=False` partition of the modelled lb-family algorithm
(greedy coloring) and of the modelled rb-family algorithm (random
sequential, any pseudo-random state) assigns every node of the network
to exactly one box, and every box satisfies its family's invariant:
lb — the maximum pairwise distance among a box's members is at most the
bound; rb — every member is within `rb` of the box's designated
center. -/
theorem claim_C1_partition_valid (d : ℕ → ℕ → ℕ) (lb rb rng : ℕ)
    (order : List ℕ) (hs : ∀ u w, d u w = d w u) (h0 : ∀ u, d u u = 0)
    (hnd : order.Nodup) :
    ((greedyBoxes d lb order).flatten.Perm order ∧
      (∀ v ∈ order, boxesContaining v (greedyBoxes d lb order) = 1) ∧
      LbValid d lb (greedyBoxes d lb order)) ∧
    ((((random_sequential_go d rb rng order).map Prod.snd).flatten).Perm
        order ∧
      (∀ v ∈ order, boxesContaining v
        ((random_sequential_go d rb rng order).map Prod.snd) = 1) ∧
      ∀ cB ∈ random_sequential_go d rb rng order,
        ∀ v ∈ cB.2, d cB.1 v ≤ rb) := by
  have hperm1 := greedyBoxes_flatten_perm d lb order
  have hnd1 : (greedyBoxes d lb order).flatten.Nodup :=
    hperm1.nodup_iff.mpr hnd
  have hperm2 := random_sequential_flatten_perm d rb rng order
  have hnd2 : (((random_sequential_go d rb rng order).map
      Prod.snd).flatten).Nodup := hperm2.nodup_iff.mpr hnd
  refine ⟨⟨hperm1, ?_, greedyBoxes_lbValid order hs h0⟩,
    hperm2, ?_, random_sequential_rbValid rb rng order h0⟩
  · intro v hv
    exact boxesContaining_eq_one hnd1 (hperm1.mem_iff.mpr hv)
  · intro v hv
    exact boxesContaining_eq_one hnd2 (hperm2.mem_iff.mpr hv)

/-- C1 witness: the concrete 6-node path network with lb = 3, rb = 1. -/
theorem claim_C1_partition_valid_witness :
    ((∀ u w, dPath u w = dPath w u) ∧ (∀ u, dPath u u = 0) ∧
      ([0, 1, 2, 3, 4, 5] : List ℕ).Nodup) ∧
    ((greedyBoxes dPath 3 [0, 1, 2, 3, 4, 5]).flatten.Perm
        [0, 1, 2, 3, 4, 5] ∧
      (∀ v ∈ ([0, 1, 2, 3, 4, 5] : List ℕ),
        boxesContaining v (greedyBoxes dPath 3 [0, 1, 2, 3, 4, 5]) = 1) ∧
      LbValid dPath 3 (greedyBoxes dPath 3 [0, 1, 2, 3, 4, 5])) ∧
    ((((random_sequential_go dPath 1 7 [0, 1, 2, 3, 4, 5]).map
        Prod.snd).flatten).Perm [0, 1, 2, 3, 4, 5] ∧
      (∀ v ∈ ([0, 1, 2, 3, 4, 5] : List ℕ),
        boxesContaining v ((random_sequential_go dPath 1 7
          [0, 1, 2, 3, 4, 5]).map Prod.snd) = 1) ∧
      ∀ cB ∈ random_sequential_go dPath 1 7 [0, 1, 2, 3, 4, 5],
        ∀ v ∈ cB.2, dPath cB.1 v ≤ 1) := by
  have hs : ∀ u w, dPath u w = dPath w u := by
    intro u w
    rw [dPath, dPath, Nat.max_comm, Nat.min_comm]
  have h0 : ∀ u, dPath u u = 0 := by
    intro u; simp [dPath]
  have hnd : ([0, 1, 2, 3, 4, 5] : List ℕ).Nodup := by decide
  have h := claim_C1_partition_valid dPath 3 1 7 [0, 1, 2, 3, 4, 5]
    hs h0 hnd
  exact ⟨⟨hs, h0, hnd⟩, h.1, h.2⟩

/-- C2 counterexample: the two-node path network (nodes 0 and 1 at
shortest-path distance 1) is connected, yet the modelled lb-family
greedy coloring at box size 1 yields one box, not a box count equal to
the node count 2: under the convention pinned by the notebook's recorded
outputs, nodes at distance exactly `lb` may share a box. -/
theorem claim_C2_counterexample :
    dPath 0 1 = 1 ∧ (greedyBoxes dPath 1 [0, 1]).length = 1 ∧
      ([0, 1] : List ℕ).length = 2 := by decide

/-- C2 as amended: for every network and lb-family (greedy) run, a box
size at least the network's diameter yields box count 1, and the box
count at box size 1 is at most (not in general equal to) the node
count. -/
theorem claim_C2_boundary_sizes (d : ℕ → ℕ → ℕ) (order : List ℕ)
    (lb : ℕ) :
    (order ≠ [] → diam d order ≤ lb →
      (greedyBoxes d lb order).length = 1) ∧
    (greedyBoxes d 1 order).length ≤ order.length := by
  constructor
  · intro hne hdiam
    refine greedyBoxes_length_one hne ?_
    intro u hu w hw
    exact le_trans (dist_le_diam hu hw) hdiam
  · have h1 := length_le_length_flatten (greedyBoxes_ne_nil d 1 order)
    have h2 := (greedyBoxes_flatten_perm d 1 order).length_eq
    omega

/-- C2 witness: the 6-node path network, whose diameter is 5. -/
theorem claim_C2_boundary_sizes_witness :
    (([0, 1, 2, 3, 4, 5] : List ℕ) ≠ [] ∧
      diam dPath [0, 1, 2, 3, 4, 5] ≤ 5 ∧
      (greedyBoxes dPath 5 [0, 1, 2, 3, 4, 5]).length = 1) ∧
    (greedyBoxes dPath 1 [0, 1, 2, 3, 4, 5]).length ≤
      ([0, 1, 2, 3, 4, 5] : List ℕ).length :=
  ⟨⟨by decide, by decide,
    (claim_C2_boundary_sizes dPath [0, 1, 2, 3, 4, 5] 5).1 (by decide)
      (by decide)⟩,
   (claim_C2_boundary_sizes dPath [0, 1, 2, 3, 4, 5] 5).2⟩

/-- C3: reading a log file written by the harness reproduces exactly the
written sequence of (box_size, result) pairs together with the recorded
times: `read_logfile` is the structural inverse of the log writer. -/
theorem claim_C3_log_roundtrip (rs : List LogRecord) :
    read_logfile (writeLog rs) = rs :=
  read_logfile_writeLog rs

/-- C4 counterexample: with ordered box sizes [1, 2] on the two-node path
network (where greedy reports box count 1 already at size 1),
`run_boxing` appends a single log record instead of one record per box
size — the loop breaks after the first box count of 1. -/
theorem claim_C4_counterexample :
    (run_boxing 0 (fun _ => 0)
        (fun s => (greedyBoxes dPath s [0, 1]).length) [1, 2]).length = 1 ∧
      ([1, 2] : List ℕ).length = 2 := by decide

/-- C4 as amended: `run_boxing` invokes the algorithm once per box size in
order, recording elapsed time plus `time_offset` and appending exactly
one record per invoked size, but only for the prefix of the size
sequence that ends at the first size whose box count is 1; later sizes
are not invoked. -/
theorem claim_C4_run_boxing (time_offset : ℕ) (elapsed : ℕ → ℕ)
    (alg : ℕ → ℕ) (sizes : List ℕ) :
    run_boxing time_offset elapsed alg sizes =
      (takeThrough (fun s => alg s = 1) sizes).map
        (fun s => ⟨s, alg s, elapsed s + time_offset⟩) :=
  run_boxing_eq_takeThrough time_offset elapsed alg sizes

/-- C7: for the modelled deterministic algorithm (greedy coloring), the
integer returned with `boxing=True` equals the number of distinct box
identifiers in the Partition returned with `boxing=False` on the same
inputs. -/
theorem claim_C7_boxing_count (d : ℕ → ℕ → ℕ) (lb : ℕ) (order : List ℕ) :
    ∃ p, greedy_coloring d lb order false = Sum.inr p ∧
      greedy_coloring d lb order true = Sum.inl (distinctBoxCount p) := by
  refine ⟨partitionOf (greedyBoxes d lb order), rfl, ?_⟩
  rw [greedy_coloring, if_pos rfl,
    distinctBoxCount_partitionOf (greedyBoxes_ne_nil d lb order)]

/-- C9: if the process-wide pseudo-random state is re-seeded with the same
value before each of two invocations of the stochastic algorithm with
identical inputs, the two invocations produce identical output. -/
theorem claim_C9_seed_reproducible (seed : ℕ) (d : ℕ → ℕ → ℕ) (rb : ℕ)
    (nodes : List ℕ) (boxing : Bool) :
    ∃ r, runSeededTwice seed
      (fun rng => random_sequential d rb rng nodes boxing) = (r, r) :=
  ⟨random_sequential d rb (seedState seed) nodes boxing, rfl⟩

/-- C5: the network built by `read_max_connected_component` has as node
set exactly the largest connected component: all nodes when the graph is
connected, and otherwise the nodes of a maximum-cardinality connected
component (the reachability class of some vertex, with no component
larger) and nothing outside it. -/
theorem claim_C5_max_component (g : PyGraph) (hne : g.verts.Nonempty) :
    ((∀ v ∈ g.verts, ∀ u ∈ g.verts, Reach g v u) →
      read_max_connected_component g = g.verts) ∧
    ∃ v ∈ g.verts,
      (↑(read_max_connected_component g) : Set ℕ) = {x | Reach g v x} ∧
      ∀ u ∈ g.verts,
        (comp g u).card ≤ (read_max_connected_component g).card := by
  constructor
  · intro h
    have hconn : isConnected g = true := by
      rw [isConnected, decide_eq_true_iff]
      intro v hv u hu
      exact (mem_comp_iff hv u).mpr (h v hv u hu)
    rw [read_max_connected_component, hconn]
    simp
  · by_cases hconn : isConnected g = true
    · rcases hne with ⟨v0, hv0⟩
      have hall : ∀ v ∈ g.verts, ∀ u ∈ g.verts, u ∈ comp g v := by
        rw [isConnected, decide_eq_true_iff] at hconn
        exact hconn
      have hres : read_max_connected_component g = g.verts := by
        rw [read_max_connected_component, hconn]
        simp
      refine ⟨v0, hv0, ?_, ?_⟩
      · rw [hres]
        ext x
        constructor
        · intro hx
          exact (mem_comp_iff hv0 x).mp (hall v0 hv0 x hx)
        · intro hx
          exact iterate_gstep_subset_verts hv0 _ ((mem_comp_iff hv0 x).mpr hx)
      · intro u hu
        rw [hres]
        exact Finset.card_le_card (iterate_gstep_subset_verts hu _)
    · have hres : read_max_connected_component g = comp g (maxCompCenter g) := by
        rw [read_max_connected_component]
        simp [hconn]
      rcases maxCompCenter_spec hne with ⟨hmem, hmax⟩
      refine ⟨maxCompCenter g, hmem, ?_, ?_⟩
      · rw [hres]
        exact comp_coe hmem
      · intro u hu
        rw [hres]
        exact hmax u hu

/-- C5 witness: a disconnected three-vertex graph with the single edge
(0, 1); its largest component is {0, 1}. -/
theorem claim_C5_max_component_witness :
    (({0, 1, 2} : Finset ℕ)).Nonempty ∧
    ((∀ v ∈ (PyGraph.mk {0, 1, 2} {(0, 1)}).verts,
        ∀ u ∈ (PyGraph.mk {0, 1, 2} {(0, 1)}).verts,
        Reach (PyGraph.mk {0, 1, 2} {(0, 1)}) v u) →
      read_max_connected_component (PyGraph.mk {0, 1, 2} {(0, 1)}) =
        (PyGraph.mk {0, 1, 2} {(0, 1)}).verts) ∧
    ∃ v ∈ (PyGraph.mk {0, 1, 2} {(0, 1)}).verts,
      (↑(read_max_connected_component (PyGraph.mk {0, 1, 2} {(0, 1)})) :
          Set ℕ) = {x | Reach (PyGraph.mk {0, 1, 2} {(0, 1)}) v x} ∧
      ∀ u ∈ (PyGraph.mk {0, 1, 2} {(0, 1)}).verts,
        (comp (PyGraph.mk {0, 1, 2} {(0, 1)}) u).card ≤
          (read_max_connected_component (PyGraph.mk {0, 1, 2} {(0, 1)})).card :=
  ⟨by decide, claim_C5_max_component (PyGraph.mk {0, 1, 2} {(0, 1)})
    (by decide)⟩

/-- C6 counterexample: for the network name "grid2d_20" the helper
produces `../../result_logs/grid2d/20/grid2d_20_greedy.txt`, whose
directory component is `grid2d/20`, not the network name — so no choice
of base makes the path follow `{base}/{network}/{network}_{algorithm}.txt`. -/
theorem claim_C6_counterexample :
    path_ "grid2d_20" (some "greedy") false =
      "../../result_logs/grid2d/20/grid2d_20_greedy.txt" ∧
    ¬ ∃ base : String, path_ "grid2d_20" (some "greedy") false =
      base ++ "/grid2d_20/grid2d_20_greedy.txt" := by
  constructor
  · decide
  · rintro ⟨base, hbase⟩
    have h1 : ("/grid2d_20/grid2d_20_greedy.txt" : String).data <:+
        (path_ "grid2d_20" (some "greedy") false).data := by
      rw [hbase, String.data_append]
      exact List.suffix_append _ _
    have h2 : ¬ ("/grid2d_20/grid2d_20_greedy.txt" : String).data <:+
        (path_ "grid2d_20" (some "greedy") false).data := by decide
    exact h2 h1

/-- C6 as amended: for network names not containing "grid" the helper
follows `../../result_logs/{net}/{net}_{alg}.txt`; for names containing
"grid" the directory is `grid2d/` plus the last two characters of the
name, with the same `{net}_{alg}` file stem; in every case the benchmark
variant differs from the plain one only by `_benchmark.txt` in place of
`.txt`. -/
theorem claim_C6_path_convention (net a : String) :
    (gridIn net = false →
      path_ net (some a) false =
        "../../result_logs/" ++ net ++ "/" ++ net ++ "_" ++ a ++ ".txt" ∧
      path_ net (some a) true =
        "../../result_logs/" ++ net ++ "/" ++ net ++ "_" ++ a ++
          "_benchmark.txt") ∧
    (gridIn net = true →
      path_ net (some a) false =
        "../../result_logs/grid2d/" ++ last2 net ++ "/" ++ net ++ "_" ++
          a ++ ".txt" ∧
      path_ net (some a) true =
        "../../result_logs/grid2d/" ++ last2 net ++ "/" ++ net ++ "_" ++
          a ++ "_benchmark.txt") ∧
    ∃ p : String, path_ net (some a) false = p ++ ".txt" ∧
      path_ net (some a) true = p ++ "_benchmark.txt" := by
  refine ⟨?_, ?_, ?_⟩
  · intro h
    constructor <;> simp [path_, h]
  · intro h
    constructor <;> simp [path_, h]
  · by_cases h : gridIn net
    · exact ⟨"../../result_logs/grid2d/" ++ last2 net ++ "/" ++ net ++
        "_" ++ a, by simp [path_, h], by simp [path_, h]⟩
    · exact ⟨"../../result_logs/" ++ net ++ "/" ++ net ++ "_" ++ a,
        by simp [path_, h], by simp [path_, h]⟩

/-- C6 witness: the notebook's own network name, which does not contain
"grid". -/
theorem claim_C6_path_convention_witness :
    gridIn "facebook_caltech_demo" = false ∧
    path_ "facebook_caltech_demo" (some "greedy") false =
      "../../result_logs/" ++ "facebook_caltech_demo" ++ "/" ++
        "facebook_caltech_demo" ++ "_" ++ "greedy" ++ ".txt" ∧
    path_ "facebook_caltech_demo" (some "greedy") true =
      "../../result_logs/" ++ "facebook_caltech_demo" ++ "/" ++
        "facebook_caltech_demo" ++ "_" ++ "greedy" ++ "_benchmark.txt" :=
  ⟨by decide,
   ((claim_C6_path_convention "facebook_caltech_demo" "greedy").1
     (by decide)).1,
   ((claim_C6_path_convention "facebook_caltech_demo" "greedy").1
     (by decide)).2⟩

/-- C8: `boxing_all` invokes `merge` through exactly one `run_boxing`
call, with only the single maximum requested box size `lb[-1]` (not the
sweep) and with the freshly measured offset — not the shared
`time_offset` — and the distance cache is dropped (then recomputed)
immediately before that invocation. -/
theorem claim_C8_merge_branch (lb rb : List ℕ) :
    mergeRuns (boxing_all lb rb) =
      [(OffsetSrc.freshMerge, SizesArg.single (lb.getLastD 0), true)] ∧
    ∃ pre post, boxing_all lb rb = pre ++
      Ev.dropCache :: Ev.recomputeCache OffsetSrc.freshMerge ::
        Ev.runBoxingEv "merge" OffsetSrc.freshMerge
          (SizesArg.single (lb.getLastD 0)) true :: post := by
  constructor
  · rfl
  · refine ⟨[Ev.benchmarkEv "greedy" lb] ++ lbStep lb "cbb" ++
      lbStep lb "greedy" ++ [Ev.seedEv],
      lbStep lb "obca" ++ lbStep lb "fuzzy" ++
        algs_rb_keys.flatMap (rbStep rb), ?_⟩
    rfl

/-- C10: "merge" is never a key of `algs_rb`, so the guard
`algorithm!='merge'` holds for every registered rb-family algorithm:
each of them is invoked through `run_boxing` with the shared
`time_offset`, and the implicit skip branch of the rb loop is
unreachable. -/
theorem claim_C10_rb_guard (lb rb : List ℕ) :
    "merge" ∉ algs_rb_keys ∧
    ∀ alg ∈ algs_rb_keys,
      rbStep rb alg = [Ev.seedEv,
        Ev.runBoxingEv alg OffsetSrc.shared (SizesArg.sweep rb) false] ∧
      Ev.runBoxingEv alg OffsetSrc.shared (SizesArg.sweep rb) false ∈
        boxing_all lb rb := by
  constructor
  · decide
  · intro alg halg
    fin_cases halg <;>
      exact ⟨rfl, by simp [boxing_all, algs_lb_keys, algs_rb_keys,
        lbStep, rbStep]⟩

/-- C10 witness: the registered rb-family algorithm "memb" with concrete
size sweeps. -/
theorem claim_C10_rb_guard_witness :
    ("memb" : String) ∈ algs_rb_keys ∧
    rbStep [1, 2] "memb" = [Ev.seedEv,
      Ev.runBoxingEv "memb" OffsetSrc.shared (SizesArg.sweep [1, 2])
        false] ∧
    Ev.runBoxingEv "memb" OffsetSrc.shared (SizesArg.sweep [1, 2]) false ∈
      boxing_all [1] [1, 2] :=
  ⟨by decide, (claim_C10_rb_guard [1] [1, 2]).2 "memb" (by decide)⟩
